/-
Verification of the AI-Tutor RAG core against its specification.

Shallow embedding of:
  * backend/utils/text_splitter.py   (TextSplitter, CodeAwareTextSplitter)
  * backend/core/vectorstore.py      (VectorStoreManager, modulo the external
                                      ChromaDB store, modelled as a list of entries
                                      with a caller-supplied distance oracle)
  * backend/services/rag_service.py  (RAGService)

Python strings are modelled as `List Char`; Python ints as `Nat` (all the
quantities involved — sizes, overlaps, indices — are non-negative in every
claim considered).  Fallible or possibly diverging loops are modelled with
explicit fuel returning `Option`.
-/
import Mathlib

namespace AITutor

/-! ### String primitives (Python `str` operations over `List Char`) -/

/-- Python `str.strip()` whitespace set (the ASCII whitespace characters;
the source only ever feeds ASCII/CJK text where these are the whitespace). -/
def isSpacePy (c : Char) : Bool :=
  c = ' ' || c = '\t' || c = '\n' || c = '\r' || c = '\x0b' || c = '\x0c'

/-- Remove trailing whitespace (Python `str.rstrip()`). -/
def trimRight (l : List Char) : List Char :=
  (l.reverse.dropWhile isSpacePy).reverse

/-- Python `str.strip()`: remove leading and trailing whitespace. -/
def pyStrip (l : List Char) : List Char :=
  (trimRight l).dropWhile isSpacePy

/-- Python `s[-n:]` for `n > 0`: the last `n` characters (all of `s` if shorter). -/
def takeLast (n : Nat) (l : List Char) : List Char :=
  l.drop (l.length - n)

/-- Python `s[a:b]` for `0 ≤ a ≤ b`. -/
def sliceL (l : List Char) (a b : Nat) : List Char :=
  (l.drop a).take (b - a)

/-- Does `s` occur as a leading segment of `l`?  (Helper for substring search.) -/
def leadEq : List Char → List Char → Bool
  | [], _ => true
  | _ :: _, [] => false
  | a :: s, b :: l => a = b && leadEq s l

/-- Python `sep in text` (substring occurrence test). -/
def hasSub (s : List Char) : List Char → Bool
  | [] => s.isEmpty
  | c :: rest => leadEq s (c :: rest) || hasSub s rest

/-- Worker for Python `str.split(sep)` with non-empty `sep = a :: s`:
scan left to right, cutting at each non-overlapping occurrence.  The scan
consumes at least one character per step, so `fuel = text.length` always
completes; the out-of-fuel base keeps the join invariant. -/
def splitOnSepGo (a : Char) (s : List Char) : Nat → List Char → List Char → List (List Char)
  | 0, l, acc => [acc.reverse ++ l]
  | _ + 1, [], acc => [acc.reverse]
  | fuel + 1, c :: rest, acc =>
    if leadEq (a :: s) (c :: rest) then
      acc.reverse :: splitOnSepGo a s fuel ((c :: rest).drop (s.length + 1)) []
    else
      splitOnSepGo a s fuel rest (c :: acc)

/-- Python `text.split(sep)`.  (`sep = []` never occurs in the splitter:
the empty separator is intercepted before any split; we return `[text]`.) -/
def splitOnSep (s text : List Char) : List (List Char) :=
  match s with
  | [] => [text]
  | a :: s' => splitOnSepGo a s' text.length text []

/-! ### TextSplitter (backend/utils/text_splitter.py) -/

/-- The default separator list of `TextSplitter.__init__`
(paragraph break, line break, CJK/ASCII sentence and clause punctuation,
space, and the empty string as the character-level last resort). -/
def defaultSeparators : List (List Char) :=
  ["\n\n".data, "\n".data, "。".data, ".".data, "；".data, ";".data,
   "，".data, ",".data, " ".data, "".data]

/-- The state held by a `TextSplitter` instance after `__init__`:
`chunk_size`, `chunk_overlap`, `separators`. -/
structure TSConfig where
  chunkSize : Nat
  chunkOverlap : Nat
  separators : List (List Char) := defaultSeparators
  deriving Repr, DecidableEq

/-- Outcome of running `TextSplitter.__init__` (a Python constructor can in
principle raise; this models that possibility so the spec's claimed
`ConfigError` is statable). -/
inductive SplitterInit where
  | ok (c : TSConfig)
  | configError
  deriving Repr, DecidableEq

/-- `TextSplitter.__init__(chunk_size, chunk_overlap, separators)`:
the source performs no validation whatsoever — it stores the fields and
returns.  `separators or [...]` replaces `None` and the empty list by the
default list (Python truthiness). -/
def TextSplitter.init (chunkSize chunkOverlap : Nat)
    (separators : Option (List (List Char)) := none) : SplitterInit :=
  .ok { chunkSize := chunkSize
        chunkOverlap := chunkOverlap
        separators :=
          match separators with
          | none => defaultSeparators
          | some [] => defaultSeparators
          | some l => l }

/-- One iteration structure of the `while start < len(text)` loop of
`TextSplitter._split_by_size`, with explicit fuel (`none` = fuel exhausted,
i.e. the modelled run did not finish within `fuel` iterations):

    end = start + chunk_size; chunk = text[start:end]
    if chunk.strip(): chunks.append(chunk.strip())
    start = end - chunk_overlap

(`start = end - overlap` is `start + (chunkSize - overlap)` over `Nat`;
the source is only ever exercised with `overlap ≤ chunk_size`, where the
two aggree and `start` never goes negative.) -/
def splitBySizeLoop (c : TSConfig) (text : List Char) : Nat → Nat → Option (List (List Char))
  | 0, _ => none
  | fuel + 1, start =>
    if start < text.length then
      let chunk := pyStrip ((text.drop start).take c.chunkSize)
      match splitBySizeLoop c text fuel (start + (c.chunkSize - c.chunkOverlap)) with
      | none => none
      | some rest => some (if chunk = [] then rest else chunk :: rest)
    else
      some []

/-- `TextSplitter._split_by_size(text)`: run the loop from `start = 0`.
`text.length + 1` iterations always suffice when `chunk_overlap < chunk_size`
(proved below); for the configurations the claims quantify over, the
`getD []` default is never taken. -/
def splitBySize (c : TSConfig) (text : List Char) : List (List Char) :=
  (splitBySizeLoop c text (text.length + 1) 0).getD []

/-- The accumulation loop of `TextSplitter._recursive_split`
(`for split in splits: ...`), lines 135–161 of text_splitter.py.
`recRest` is the recursive call `self._recursive_split(·, separators[i+1:])`,
passed in by the caller.  State: `(chunks, current_chunk)`. -/
def mergeLoop (c : TSConfig) (recRest : List Char → List (List Char)) (sep : List Char) :
    List (List Char) → List (List Char) → List Char → List (List Char) × List Char
  | [], chunks, current => (chunks, current)
  | sp :: sps, chunks, current =>
    let piece := sp ++ sep
    if current.length + piece.length ≤ c.chunkSize then
      mergeLoop c recRest sep sps chunks (current ++ piece)
    else
      let chunks1 := if pyStrip current = [] then chunks else chunks ++ [pyStrip current]
      let current1 :=
        if 0 < c.chunkOverlap ∧ current ≠ [] then takeLast c.chunkOverlap current ++ piece
        else piece
      if c.chunkSize < current1.length then
        let subs := recRest current1
        if subs = [] then mergeLoop c recRest sep sps chunks1 current1
        else mergeLoop c recRest sep sps (chunks1 ++ subs.dropLast) (subs.getLastD [])
      else
        mergeLoop c recRest sep sps chunks1 current1

/-- `TextSplitter._recursive_split(text, separators)`.  The Python `for`
over `enumerate(separators)` with recursive calls on `separators[i+1:]`
becomes structural recursion on the separator list; note that the two
guards at the top (`if not text`, `if len(text) <= chunk_size`) only
depend on `text`, so re-entering with the tail separator list is exactly
the continuation of the Python loop. -/
def recSplit (c : TSConfig) (seps : List (List Char)) (text : List Char) :
    List (List Char) :=
  if text = [] then []
  else if text.length ≤ c.chunkSize then
    (if pyStrip text = [] then [] else [text])
  else
    match seps with
    | [] => splitBySize c text
    | s :: rest =>
      if s = [] then splitBySize c text
      else if hasSub s text then
        let st := mergeLoop c (fun t => recSplit c rest t) s (splitOnSep s text) [] []
        st.1 ++ (if pyStrip st.2 = [] then [] else [pyStrip st.2])
      else recSplit c rest text

/-- A chunk record as produced by `split_text` (`content`, `chunk_index`,
`char_count`, and — for the code-aware splitter — the `is_code` tag;
the opaque `metadata` pass-through is not modelled). -/
structure PyChunk where
  content : List Char
  chunkIndex : Nat
  charCount : Nat
  isCode : Bool := false
  deriving Repr, DecidableEq

/-- `TextSplitter.split_text(text)`: run `_recursive_split` with the
configured separators and wrap each chunk with its index and length. -/
def splitText (c : TSConfig) (text : List Char) : List PyChunk :=
  (recSplit c c.separators text).enum.map
    (fun p => { content := p.2, chunkIndex := p.1, charCount := p.2.length, isCode := false })

/-! ### CodeAwareTextSplitter and its code-block pattern

The pattern compiled in `CodeAwareTextSplitter.__init__` is

    ```[\s\S]*?```|(?:^|\n)(?:    |\t).*(?:\n(?:    |\t).*)*      (MULTILINE)

`finditer` scans positions left to right, at each position trying the fenced
alternative first (lazy body: the *nearest* closing fence wins), then the
indented alternative (`^` branch before the `\n` branch; 4 spaces before tab;
`.*` runs to the end of line; the line-group is greedy). -/

def fenceChars : List Char := "```".data

/-- First position `q ≥ start` at which three backticks occur, if any
(the scan advances one position per fuel unit; `text.length + 1` units
always reach the end of the text). -/
def findFenceGo (text : List Char) : Nat → Nat → Option Nat
  | 0, _ => none
  | fuel + 1, start =>
    if text.length ≤ start then none
    else if leadEq fenceChars (text.drop start) then some start
    else findFenceGo text fuel (start + 1)

/-- First position `q ≥ start` at which three backticks occur, if any. -/
def findFence (text : List Char) (start : Nat) : Option Nat :=
  findFenceGo text (text.length + 1) start

/-- Try the fenced alternative at position `p`; returns the match end. -/
def matchFenced (text : List Char) (p : Nat) : Option Nat :=
  if leadEq fenceChars (text.drop p) then
    match findFence text (p + 3) with
    | some q => some (q + 3)
    | none => none
  else none

/-- Does the indent group `(?:    |\t)` match at position `p`? -/
def indentOk (text : List Char) (p : Nat) : Bool :=
  leadEq "    ".data (text.drop p) || text.get? p = some '\t'

/-- End of the line starting at or after `p` (`.*` runs up to the next
newline or the end of text; one fuel unit per scanned position). -/
def lineEndGo (text : List Char) : Nat → Nat → Nat
  | 0, p => p
  | fuel + 1, p =>
    if text.length ≤ p then text.length
    else if text.get? p = some '\n' then p
    else lineEndGo text fuel (p + 1)

/-- End of the line starting at or after `p`. -/
def lineEnd (text : List Char) (p : Nat) : Nat :=
  lineEndGo text (text.length + 1) p

/-- The greedy `(?:\n(?:    |\t).*)*` group: starting from match end `e`,
keep absorbing `\n`-plus-indented lines. -/
def extendLines (text : List Char) : Nat → Nat → Nat
  | 0, e => e
  | fuel + 1, e =>
    if text.get? e = some '\n' && indentOk text (e + 1) then
      extendLines text fuel (lineEnd text (e + 1))
    else e

/-- Try the indented alternative at position `p` (MULTILINE `^` matches at
position 0 and right after any newline; the `^` branch is preferred, the
`\n` branch consumes the newline). -/
def matchIndented (text : List Char) (p : Nat) : Option Nat :=
  let caret := p = 0 || (decide (0 < p) && text.get? (p - 1) = some '\n')
  if caret && indentOk text p then
    some (extendLines text (text.length + 1) (lineEnd text p))
  else if text.get? p = some '\n' && indentOk text (p + 1) then
    some (extendLines text (text.length + 1) (lineEnd text (p + 1)))
  else none

/-- Try the whole pattern at position `p` (fenced alternative first). -/
def matchAt (text : List Char) (p : Nat) : Option Nat :=
  match matchFenced text p with
  | some e => some e
  | none => matchIndented text p

/-- `finditer` scan: collect non-overlapping matches `(start, end)` left to
right, resuming after each match.  Every match of this pattern is non-empty,
so `text.length + 1` steps of fuel always complete the scan. -/
def finditerGo (text : List Char) : Nat → Nat → List (Nat × Nat)
  | 0, _ => []
  | fuel + 1, p =>
    if text.length < p then []
    else
      match matchAt text p with
      | some e => (p, e) :: finditerGo text fuel e
      | none => finditerGo text fuel (p + 1)

/-- All matches of the code-block pattern in `text`. -/
def finditer (text : List Char) : List (Nat × Nat) :=
  finditerGo text (text.length + 1) 0

/-- The `for match in code_blocks` loop of `CodeAwareTextSplitter.split_text`
(lines 216–238): alternately split the prose before a match with the plain
splitter and emit the matched block — as one `is_code` chunk if its length
is at most `2 * chunk_size`, else re-split.  State: `(chunks, last_end)`. -/
def codeLoop (c : TSConfig) (text : List Char) :
    List (Nat × Nat) → List PyChunk → Nat → List PyChunk × Nat
  | [], chunks, lastEnd => (chunks, lastEnd)
  | (s, e) :: ms, chunks, lastEnd =>
    let before := sliceL text lastEnd s
    let chunks1 := if pyStrip before = [] then chunks else chunks ++ splitText c before
    let block := sliceL text s e
    let chunks2 :=
      if block.length ≤ c.chunkSize * 2 then
        chunks1 ++ [{ content := block, chunkIndex := chunks1.length,
                      charCount := block.length, isCode := true }]
      else chunks1 ++ splitText c block
    codeLoop c text ms chunks2 e

/-- `CodeAwareTextSplitter.split_text(text)`. -/
def codeSplitText (c : TSConfig) (text : List Char) : List PyChunk :=
  let ms := finditer text
  if ms = [] then splitText c text
  else
    let st := codeLoop c text ms [] 0
    let remaining := text.drop st.2
    if pyStrip remaining = [] then st.1 else st.1 ++ splitText c remaining

/-! ### VectorStoreManager (backend/core/vectorstore.py)

The external ChromaDB collection is modelled as a list of entries (insertion
order preserved, every entry carrying the metadata fields the source reads or
writes).  Embedding similarity is external: `search` receives the distances
the underlying store would report as an oracle `dist : VEntry → ℚ` and
returns the `k` nearest entries (ascending distance, ties by insertion
order — ChromaDB's stable ordering).  The `added_at` timestamp is not
modelled (no claim mentions it). -/

/-- One stored entry: content plus the metadata fields the source touches
(`source` and `page` pass through from the chunk; `document_id` and
`chunk_id` are stamped by `add_documents`). -/
structure VEntry where
  content : List Char
  source : Option (List Char) := none
  page : Option (List Char) := none
  documentId : Option (List Char) := none
  chunkId : Option (List Char) := none
  deriving Repr, DecidableEq

/-- An input chunk dict handed to `add_documents` (`content` plus optional
metadata; any pre-existing `document_id` in the metadata is overwritten by
`add_documents`). -/
structure InChunk where
  content : List Char
  source : Option (List Char) := none
  page : Option (List Char) := none
  documentId : Option (List Char) := none
  deriving Repr, DecidableEq

/-- The modelled collection state. -/
abbrev VStore := List VEntry

/-- `VectorStoreManager.add_documents(chunks, document_id)`: returns the
count added and the new state.  Each chunk's metadata gets
`document_id := document_id` (overwriting) and `chunk_id := f"{document_id}_{i}"`;
an empty chunk list is a no-op returning 0. -/
def addDocuments (st : VStore) (chunks : List InChunk) (documentId : List Char) :
    Nat × VStore :=
  if chunks = [] then (0, st)
  else
    let docs := chunks.enum.map (fun p =>
      ({ content := p.2.content
         source := p.2.source
         page := p.2.page
         documentId := some documentId
         chunkId := some (documentId ++ '_' :: (Nat.repr p.1).data) } : VEntry))
    (docs.length, st ++ docs)

/-- `VectorStoreManager.delete_document(document_id)`: remove every entry
whose metadata `document_id` equals the argument; return the number removed
and the new state. -/
def deleteDocument (st : VStore) (documentId : List Char) : Nat × VStore :=
  ((st.filter (fun e => e.documentId = some documentId)).length,
   st.filter (fun e => ¬ e.documentId = some documentId))

/-- The dict returned by `VectorStoreManager.get_stats` (the constant
`collection_name` field is omitted). -/
structure VStats where
  totalChunks : Nat
  totalDocuments : Nat
  deriving Repr, DecidableEq

/-- `VectorStoreManager.get_stats()`: entry count and number of distinct
`document_id` values. -/
def getStats (st : VStore) : VStats :=
  { totalChunks := st.length
    totalDocuments := (st.filterMap (fun e => e.documentId)).dedup.length }

/-- Stable insertion sort by ascending oracle distance (the k-NN order the
underlying store reports). -/
def insertByDist (dist : VEntry → ℚ) (e : VEntry) : List VEntry → List VEntry
  | [] => [e]
  | f :: rest =>
    if dist f ≤ dist e then f :: insertByDist dist e rest else e :: f :: rest

/-- Sort entries by ascending distance (stable). -/
def sortByDist (dist : VEntry → ℚ) : List VEntry → List VEntry
  | [] => []
  | e :: rest => insertByDist dist e (sortByDist dist rest)

/-- A formatted search result (content, the metadata fields, and the
`relevance_score` computed by `search`). -/
structure SearchResult where
  content : List Char
  source : Option (List Char) := none
  page : Option (List Char) := none
  documentId : Option (List Char) := none
  relevanceScore : ℚ := 0
  deriving Repr, DecidableEq

/-- The result-formatting loop of `VectorStoreManager.search` (lines
135–141): `relevance_score = 1 - score` — no clamping appears in the
source. -/
def formatResults (pairs : List (VEntry × ℚ)) : List SearchResult :=
  pairs.map (fun p =>
    { content := p.1.content
      source := p.1.source
      page := p.1.page
      documentId := p.1.documentId
      relevanceScore := 1 - p.2 })

/-- `VectorStoreManager.search(query, k)`: the underlying
`similarity_search_with_score` returns the `k` nearest entries with their
distances (the query string only enters through the distance oracle). -/
def vsearch (st : VStore) (dist : VEntry → ℚ) (k : Nat) : List SearchResult :=
  formatResults (((sortByDist dist st).take k).map (fun e => (e, dist e)))

/-- One source group built by `search_with_sources` (dict key, the `source`
and `page` fields, and the accumulated previews `content[:200] + "..."`). -/
structure SourceGroup where
  key : List Char
  source : List Char
  page : List Char
  chunks : List (List Char)
  deriving Repr, DecidableEq

/-- Metadata accessor with Python's `.get("source", "Unknown")` default. -/
def sourceOf (source? : Option (List Char)) : List Char :=
  source?.getD "Unknown".data

/-- Metadata accessor with Python's `.get("page", "N/A")` default. -/
def pageOf (page? : Option (List Char)) : List Char :=
  page?.getD "N/A".data

/-- The grouping key `f"{source} (第{page}页)"` of `search_with_sources`. -/
def groupKey (r : SearchResult) : List Char :=
  sourceOf r.source ++ " (第".data ++ pageOf r.page ++ "页)".data

/-- Insert one result into the source-group dict (Python dicts preserve
insertion order; an existing key appends a preview to its group). -/
def addToGroups (gs : List SourceGroup) (r : SearchResult) : List SourceGroup :=
  if gs.any (fun g => g.key = groupKey r) then
    gs.map (fun g =>
      if g.key = groupKey r then
        { g with chunks := g.chunks ++ [r.content.take 200 ++ "...".data] }
      else g)
  else
    gs ++ [{ key := groupKey r, source := sourceOf r.source, page := pageOf r.page,
             chunks := [r.content.take 200 ++ "...".data] }]

/-- The dict returned by `search_with_sources`. -/
structure SearchWithSources where
  results : List SearchResult
  sources : List SourceGroup
  deriving Repr, DecidableEq

/-- `VectorStoreManager.search_with_sources(query, k)`. -/
def searchWithSources (st : VStore) (dist : VEntry → ℚ) (k : Nat) :
    SearchWithSources :=
  let results := vsearch st dist k
  { results := results, sources := results.foldl addToGroups [] }

/-! ### RAGService (backend/services/rag_service.py)

The LLM chain (`prompt | llm | StrOutputParser`) is an external generation
capability, modelled as an oracle `gen : List Char → List Char → List Char`
taking the formatted context and the question.  `query` awaits it
(`ainvoke`), `query_sync` calls it (`invoke`) — the embedding of each method
mirrors its own body. -/

/-- One source reference dict built by `_format_sources`:
`source` (the label `f"《{source}》第{page}页"`), `content`
(the preview `chunk["content"][:150] + "..."`), `relevance_score`. -/
structure SourceRef where
  source : List Char
  content : List Char
  relevanceScore : ℚ
  deriving Repr, DecidableEq

/-- The dedup key `f"{source}_{page}"` of `_format_sources` (a single
string, not the pair). -/
def srcKey (r : SearchResult) : List Char :=
  sourceOf r.source ++ '_' :: pageOf r.page

/-- The reference built from one chunk by `_format_sources` (note the
unconditional `+ "..."`). -/
def mkSourceRef (r : SearchResult) : SourceRef :=
  { source := "《".data ++ sourceOf r.source ++ "》第".data ++ pageOf r.page ++ "页".data
    content := r.content.take 150 ++ "...".data
    relevanceScore := r.relevanceScore }

/-- The loop of `RAGService._format_sources` (lines 146–157): a `seen` set
of keys, appending a reference on first occurrence only. -/
def formatSourcesAux : List SearchResult → List (List Char) → List SourceRef
  | [], _ => []
  | r :: rest, seen =>
    if srcKey r ∈ seen then formatSourcesAux rest seen
    else mkSourceRef r :: formatSourcesAux rest (srcKey r :: seen)

/-- `RAGService._format_sources(chunks)`. -/
def formatSources (chunks : List SearchResult) : List SourceRef :=
  formatSourcesAux chunks []

/-- `RAGService._format_context(chunks)`: each chunk rendered with its
1-based index, source, page and content, joined with `"\n"`. -/
def formatContext (chunks : List SearchResult) : List Char :=
  List.intercalate "\n".data
    ((chunks.enumFrom 1).map (fun p =>
      "【参考资料 ".data ++ (Nat.repr p.1).data ++ "】\n来源：".data
        ++ sourceOf p.2.source ++ "，第".data ++ pageOf p.2.page
        ++ "页\n内容：".data ++ p.2.content ++ "\n".data))

/-- The fixed no-context answer of `RAGService.query` / `query_sync`. -/
def noContextMsg : List Char :=
  "抱歉，我在知识库中没有找到与您问题相关的内容。请确保已上传相关的课程资料，或尝试换一种方式提问。".data

/-- The dict returned by `query` / `query_sync` (`sources = none` models an
absent key: the key is only set when `include_sources` or on the no-context
path). -/
structure RAGResponse where
  answer : List Char
  sources : Option (List SourceRef)
  hasContext : Bool
  deriving Repr, DecidableEq

/-- `RAGService.query(question, k, include_sources)` (the async path,
lines 26–80). -/
def RAGService.query (st : VStore) (dist : VEntry → ℚ)
    (gen : List Char → List Char → List Char)
    (question : List Char) (k : Nat) (includeSources : Bool) : RAGResponse :=
  let searchResults := searchWithSources st dist k
  let contextChunks := searchResults.results
  if contextChunks = [] then
    { answer := noContextMsg, sources := some [], hasContext := false }
  else
    let context := formatContext contextChunks
    let answer := gen context question
    { answer := answer
      sources := if includeSources then some (formatSources contextChunks) else none
      hasContext := true }

/-- `RAGService.query_sync(question, k, include_sources)` (the synchronous
path, lines 82–122). -/
def RAGService.querySync (st : VStore) (dist : VEntry → ℚ)
    (gen : List Char → List Char → List Char)
    (question : List Char) (k : Nat) (includeSources : Bool) : RAGResponse :=
  let searchResults := searchWithSources st dist k
  let contextChunks := searchResults.results
  if contextChunks = [] then
    { answer := noContextMsg, sources := some [], hasContext := false }
  else
    let context := formatContext contextChunks
    let answer := gen context question
    { answer := answer
      sources := if includeSources then some (formatSources contextChunks) else none
      hasContext := true }

/-! ### Fuel-explicit mirror of `_recursive_split` (termination claim C5)

`recSplit`/`mergeLoop` above are total Lean functions; to *state* that the
Python recursion terminates we mirror the call structure with explicit fuel:
one unit of fuel is spent on every Python-level recursive call
`_recursive_split(current_chunk, separators[i+1:])`, and the
`_split_by_size` while-loop runs on its own fuel `len(text) + 1`.
`none` means the modelled run did not complete within the given fuel. -/

/-- Fuel-explicit variant of `mergeLoop`: `recRest` may fail (out of fuel),
and failure propagates. -/
def mergeLoopF (c : TSConfig) (recRest : List Char → Option (List (List Char)))
    (sep : List Char) :
    List (List Char) → List (List Char) → List Char →
    Option (List (List Char) × List Char)
  | [], chunks, current => some (chunks, current)
  | sp :: sps, chunks, current =>
    let piece := sp ++ sep
    if current.length + piece.length ≤ c.chunkSize then
      mergeLoopF c recRest sep sps chunks (current ++ piece)
    else
      let chunks1 := if pyStrip current = [] then chunks else chunks ++ [pyStrip current]
      let current1 :=
        if 0 < c.chunkOverlap ∧ current ≠ [] then takeLast c.chunkOverlap current ++ piece
        else piece
      if c.chunkSize < current1.length then
        match recRest current1 with
        | none => none
        | some subs =>
          if subs = [] then mergeLoopF c recRest sep sps chunks1 current1
          else mergeLoopF c recRest sep sps (chunks1 ++ subs.dropLast) (subs.getLastD [])
      else
        mergeLoopF c recRest sep sps chunks1 current1

/-- Fuel-explicit variant of `recSplit`: fuel is consumed at each
Python-level recursive call (which always passes the strictly shorter
separator list `separators[i+1:]`). -/
def recSplitF (c : TSConfig) : Nat → List (List Char) → List Char → Option (List (List Char))
  | 0, _, _ => none
  | n + 1, seps, text =>
    if text = [] then some []
    else if text.length ≤ c.chunkSize then
      some (if pyStrip text = [] then [] else [text])
    else
      match seps with
      | [] => splitBySizeLoop c text (text.length + 1) 0
      | s :: rest =>
        if s = [] then splitBySizeLoop c text (text.length + 1) 0
        else if hasSub s text then
          match mergeLoopF c (fun t => recSplitF c n rest t) s (splitOnSep s text) [] [] with
          | none => none
          | some st => some (st.1 ++ (if pyStrip st.2 = [] then [] else [pyStrip st.2]))
        else recSplitF c n rest text

/-! ### Definitions used only in theorem statements -/

/-- Join pieces back with the separator between them (the inverse of
Python's `str.split`, used to state correctness of `splitOnSep`). -/
def joinSep (s : List Char) : List (List Char) → List Char
  | [] => []
  | [x] => x
  | x :: y :: rest => x ++ s ++ joinSep s (y :: rest)

/-- Deduplication by first occurrence of the key `f"{source}_{page}"`,
written in the filter style of the spec ("first occurrence wins, preserving
order"): keep the head, drop every later chunk with the same key, recurse.
This is the independent reference implementation that `_format_sources`
(a seen-set loop) is proved equal to. -/
def formatSourcesRef : List SearchResult → List SourceRef
  | [] => []
  | r :: rest =>
    mkSourceRef r :: formatSourcesRef (rest.filter (fun d => ¬ srcKey d = srcKey r))
  termination_by l => l.length
  decreasing_by
    simp only [List.length_cons]
    exact Nat.lt_succ_of_le (List.length_filter_le _ _)

/-! ### Lemmas: `pyStrip` -/

theorem pyStrip_sublist (l : List Char) : List.Sublist (pyStrip l) l := by
  have h1 : List.Sublist (pyStrip l) (trimRight l) := List.dropWhile_sublist _
  have h2 : List.Sublist (trimRight l) l := by
    have h := (List.dropWhile_sublist (l := l.reverse) isSpacePy).reverse
    simpa [trimRight] using h
  exact h1.trans h2

theorem pyStrip_length (l : List Char) : (pyStrip l).length ≤ l.length :=
  (pyStrip_sublist l).length_le

theorem mem_of_mem_pyStrip {c : Char} {l : List Char} (h : c ∈ pyStrip l) : c ∈ l :=
  (pyStrip_sublist l).mem h

theorem trimRight_eq_nil_iff {l : List Char} :
    trimRight l = [] ↔ ∀ c ∈ l, isSpacePy c := by
  simp [trimRight, List.dropWhile_eq_nil_iff]

theorem pyStrip_eq_nil_iff {l : List Char} :
    pyStrip l = [] ↔ ∀ c ∈ l, isSpacePy c := by
  constructor
  · intro h c hc
    by_cases htr : ∀ c ∈ trimRight l, isSpacePy c
    · have hl : ∀ c ∈ l, isSpacePy c := by
        intro d hd
        have : d ∈ (l.reverse.dropWhile isSpacePy).reverse ++
            (l.reverse.takeWhile isSpacePy).reverse := by
          have hsplit : (l.reverse.takeWhile isSpacePy) ++ (l.reverse.dropWhile isSpacePy)
              = l.reverse := List.takeWhile_append_dropWhile ..
          have : d ∈ l.reverse := by simpa using hd
          rw [← hsplit] at this
          rcases List.mem_append.1 this with h1 | h1
          · exact List.mem_append.2 (Or.inr (by simpa using h1))
          · exact List.mem_append.2 (Or.inl (by simpa using h1))
        rcases List.mem_append.1 this with h1 | h1
        · exact htr d (by simpa [trimRight] using h1)
        · exact List.mem_takeWhile_imp (by simpa using h1)
      exact hl c hc
    · exfalso
      have := List.dropWhile_eq_nil_iff.1 h
      push_neg at htr
      obtain ⟨d, hd, hds⟩ := htr
      exact hds (this d hd)
  · intro h
    have : trimRight l = [] := trimRight_eq_nil_iff.2 h
    simp [pyStrip, this]

theorem pyStrip_head?_not_space {l : List Char} {c : Char}
    (h : (pyStrip l).head? = some c) : isSpacePy c = false := by
  have h0 := List.head?_dropWhile_not isSpacePy (trimRight l)
  have h' : ((trimRight l).dropWhile isSpacePy).head? = some c := h
  rw [h'] at h0
  exact h0

theorem pyStrip_getLast?_not_space {l : List Char} {c : Char}
    (h : (pyStrip l).getLast? = some c) : isSpacePy c = false := by
  -- the stripped list is a suffix of `trimRight l`, so they share the last
  -- element; the last element of `trimRight l` is the head of
  -- `l.reverse.dropWhile`, which is not a space
  have hsplit : (trimRight l).takeWhile isSpacePy ++ (trimRight l).dropWhile isSpacePy
      = trimRight l := List.takeWhile_append_dropWhile ..
  have hne : (pyStrip l) ≠ [] := by
    intro h0
    rw [h0] at h
    simp at h
  have h1 : (trimRight l).getLast? = some c := by
    rw [← hsplit, List.getLast?_append]
    have h' : ((trimRight l).dropWhile isSpacePy).getLast? = some c := h
    rw [h']
    rfl
  have h2 : (l.reverse.dropWhile isSpacePy).head? = some c := by
    have : (trimRight l).getLast? = (trimRight l).reverse.head? := by
      rw [List.head?_reverse]
    rw [this] at h1
    simpa [trimRight] using h1
  have h0 := List.head?_dropWhile_not isSpacePy l.reverse
  rw [h2] at h0
  exact h0

theorem dropWhile_eq_self_of_head? {p : Char → Bool} {l : List Char}
    (h : ∀ c, l.head? = some c → p c = false) : l.dropWhile p = l := by
  cases l with
  | nil => rfl
  | cons c rest =>
    rw [List.dropWhile_cons]
    simp [h c rfl]

theorem pyStrip_idem (l : List Char) : pyStrip (pyStrip l) = pyStrip l := by
  rcases hres : pyStrip l with _ | ⟨c, rest⟩
  · rfl
  · have htrim : trimRight (c :: rest) = c :: rest := by
      have hrev : (c :: rest).reverse.dropWhile isSpacePy = (c :: rest).reverse := by
        apply dropWhile_eq_self_of_head?
        intro d hd
        rw [List.head?_reverse] at hd
        exact pyStrip_getLast?_not_space (by rw [hres]; exact hd)
      unfold trimRight
      rw [hrev, List.reverse_reverse]
    have hdrop : (c :: rest).dropWhile isSpacePy = c :: rest := by
      apply dropWhile_eq_self_of_head?
      intro d hd
      have hd' : d = c := by simpa using hd.symm
      rw [hd']
      exact pyStrip_head?_not_space (by rw [hres]; rfl)
    show ((trimRight (c :: rest)).dropWhile isSpacePy) = c :: rest
    rw [htrim, hdrop]

/-! ### Lemmas: `takeLast`, `leadEq`, `splitOnSep` -/

theorem mem_of_mem_takeLast {c : Char} {n : Nat} {l : List Char}
    (h : c ∈ takeLast n l) : c ∈ l :=
  List.mem_of_mem_drop h

theorem leadEq_append : ∀ (s l : List Char), leadEq s l = true → s ++ l.drop s.length = l
  | [], l, _ => by simp
  | a :: s', [], h => by simp [leadEq] at h
  | a :: s', b :: l', h => by
    simp only [leadEq, Bool.and_eq_true, decide_eq_true_eq] at h
    obtain ⟨hab, hrec⟩ := h
    have ih := leadEq_append s' l' hrec
    simp only [List.length_cons, List.cons_append, List.drop_succ_cons]
    rw [hab, ih]

theorem splitOnSepGo_ne_nil (a : Char) (s : List Char) :
    ∀ (fuel : Nat) (l acc : List Char), splitOnSepGo a s fuel l acc ≠ [] := by
  intro fuel
  induction fuel with
  | zero => intro l acc; simp [splitOnSepGo]
  | succ fuel ih =>
    intro l acc
    cases l with
    | nil => simp [splitOnSepGo]
    | cons c rest =>
      rw [splitOnSepGo]
      split
      · simp
      · exact ih rest (c :: acc)

theorem splitOnSepGo_join (a : Char) (s : List Char) :
    ∀ (fuel : Nat) (l acc : List Char), l.length ≤ fuel →
      joinSep (a :: s) (splitOnSepGo a s fuel l acc) = acc.reverse ++ l := by
  intro fuel
  induction fuel with
  | zero =>
    intro l acc hl
    have : l = [] := List.length_eq_zero.1 (Nat.le_zero.1 hl)
    subst this
    simp [splitOnSepGo, joinSep]
  | succ fuel ih =>
    intro l acc hl
    cases l with
    | nil => simp [splitOnSepGo, joinSep]
    | cons c rest =>
      rw [splitOnSepGo]
      split
      · rename_i hlead
        -- a cut: the tail starts with the separator, recurse after it
        rcases hG : splitOnSepGo a s fuel ((c :: rest).drop (s.length + 1)) [] with _ | ⟨g, G⟩
        · exact absurd hG (splitOnSepGo_ne_nil a s fuel _ [])
        · have hlen : ((c :: rest).drop (s.length + 1)).length ≤ fuel := by
            simp only [List.length_drop, List.length_cons]
            simp only [List.length_cons] at hl
            omega
          have ihj := ih ((c :: rest).drop (s.length + 1)) [] hlen
          rw [hG] at ihj
          simp only [List.reverse_nil, List.nil_append] at ihj
          show joinSep (a :: s) (acc.reverse :: g :: G) = acc.reverse ++ c :: rest
          rw [joinSep, ihj]
          have := leadEq_append (a :: s) (c :: rest) hlead
          simp only [List.length_cons] at this
          rw [List.append_assoc]
          congr 1
      · rename_i hlead
        have := ih rest (c :: acc) (by simp at hl; omega)
        rw [this]
        simp

theorem joinSep_splitOnSep (a : Char) (s text : List Char) :
    joinSep (a :: s) (splitOnSep (a :: s) text) = text := by
  have := splitOnSepGo_join a s text.length text [] (Nat.le_refl _)
  simpa [splitOnSep] using this

theorem mem_joinSep {ch : Char} {s : List Char} :
    ∀ {parts : List (List Char)}, ch ∈ joinSep s parts →
      (∃ sp ∈ parts, ch ∈ sp) ∨ ch ∈ s := by
  intro parts
  induction parts with
  | nil => intro h; simp [joinSep] at h
  | cons x parts' ih =>
    intro h
    cases parts' with
    | nil =>
      simp only [joinSep] at h
      exact Or.inl ⟨x, by simp, h⟩
    | cons y rest =>
      simp only [joinSep, List.append_assoc, List.mem_append] at h
      rcases h with hx | hs | hj
      · exact Or.inl ⟨x, by simp, hx⟩
      · exact Or.inr hs
      · rcases ih hj with ⟨sp, hsp, hc⟩ | hs
        · exact Or.inl ⟨sp, List.mem_cons_of_mem _ hsp, hc⟩
        · exact Or.inr hs

/-- If every piece (with its separator re-appended) is all whitespace, so is
the original text. -/
theorem allSpace_of_splits {a : Char} {s text : List Char}
    (h : ∀ sp ∈ splitOnSep (a :: s) text, ∀ ch ∈ sp ++ (a :: s), isSpacePy ch) :
    ∀ ch ∈ text, isSpacePy ch := by
  intro ch hch
  rw [← joinSep_splitOnSep a s text] at hch
  rcases mem_joinSep hch with ⟨sp, hsp, hc⟩ | hs
  · exact h sp hsp ch (List.mem_append.2 (Or.inl hc))
  · -- the separator occurs inside the join only if some piece exists
    rcases hparts : splitOnSep (a :: s) text with _ | ⟨p0, ps⟩
    · rw [hparts] at hch; simp [joinSep] at hch
    · exact h p0 (by rw [hparts]; simp) ch (List.mem_append.2 (Or.inr hs))

/-! ### Lemmas: `splitBySizeLoop` (the `_split_by_size` while-loop) -/

/-- With `chunk_overlap < chunk_size` the loop advances by at least one
character per iteration, so `text.length - start < fuel` iterations always
complete. -/
theorem splitBySizeLoop_completes (c : TSConfig) (text : List Char)
    (hov : c.chunkOverlap < c.chunkSize) :
    ∀ (fuel start : Nat), text.length - start < fuel →
      ∃ res, splitBySizeLoop c text fuel start = some res := by
  intro fuel
  induction fuel with
  | zero => intro start h; omega
  | succ fuel ih =>
    intro start h
    rw [splitBySizeLoop]
    by_cases hs : start < text.length
    · obtain ⟨res, hres⟩ := ih (start + (c.chunkSize - c.chunkOverlap)) (by omega)
      rw [if_pos hs, hres]
      exact ⟨_, rfl⟩
    · rw [if_neg hs]
      exact ⟨[], rfl⟩

/-- Every chunk the loop emits is a stripped, non-empty slice of at most
`chunk_size` characters. -/
theorem splitBySizeLoop_chunks (c : TSConfig) (text : List Char) :
    ∀ (fuel start : Nat) (res : List (List Char)),
      splitBySizeLoop c text fuel start = some res →
      ∀ ch ∈ res, ch.length ≤ c.chunkSize ∧ pyStrip ch = ch ∧ ch ≠ [] := by
  intro fuel
  induction fuel with
  | zero => intro start res h; simp [splitBySizeLoop] at h
  | succ fuel ih =>
    intro start res h
    rw [splitBySizeLoop] at h
    by_cases hs : start < text.length
    · rw [if_pos hs] at h
      rcases hrec : splitBySizeLoop c text fuel (start + (c.chunkSize - c.chunkOverlap))
        with _ | rest
      · rw [hrec] at h; exact absurd h (by simp)
      · rw [hrec] at h
        simp only [Option.some.injEq] at h
        intro ch hch
        rw [← h] at hch
        by_cases hstrip : pyStrip ((text.drop start).take c.chunkSize) = []
        · rw [if_pos hstrip] at hch
          exact ih _ rest hrec ch hch
        · rw [if_neg hstrip] at hch
          rcases List.mem_cons.1 hch with hc | hc
          · subst hc
            refine ⟨?_, pyStrip_idem _, hstrip⟩
            calc (pyStrip ((text.drop start).take c.chunkSize)).length
                ≤ ((text.drop start).take c.chunkSize).length := pyStrip_length _
              _ ≤ c.chunkSize := List.length_take_le _ _
          · exact ih _ rest hrec ch hc
    · rw [if_neg hs] at h
      simp only [Option.some.injEq] at h
      intro ch hch
      rw [← h] at hch
      simp at hch

/-- If the loop emits nothing, everything from `start` on is whitespace
(the advancing windows cover the remaining text when
`chunk_overlap < chunk_size`). -/
theorem splitBySizeLoop_nil (c : TSConfig) (text : List Char)
    (hov : c.chunkOverlap < c.chunkSize) :
    ∀ (fuel start : Nat),
      splitBySizeLoop c text fuel start = some [] →
      ∀ ch ∈ text.drop start, isSpacePy ch := by
  intro fuel
  induction fuel with
  | zero => intro start h; simp [splitBySizeLoop] at h
  | succ fuel ih =>
    intro start h
    rw [splitBySizeLoop] at h
    by_cases hs : start < text.length
    · rw [if_pos hs] at h
      rcases hrec : splitBySizeLoop c text fuel (start + (c.chunkSize - c.chunkOverlap))
        with _ | rest
      · rw [hrec] at h; exact absurd h (by simp)
      · rw [hrec] at h
        simp only [Option.some.injEq] at h
        by_cases hstrip : pyStrip ((text.drop start).take c.chunkSize) = []
        · rw [if_pos hstrip] at h
          subst h
          -- window is whitespace and (by IH) so is everything after the step
          have hwin : ∀ ch ∈ (text.drop start).take c.chunkSize, isSpacePy ch :=
            pyStrip_eq_nil_iff.1 hstrip
          have hrest : ∀ ch ∈ text.drop (start + (c.chunkSize - c.chunkOverlap)),
              isSpacePy ch := ih _ hrec
          intro ch hch
          rw [← List.take_append_drop c.chunkSize (text.drop start)] at hch
          rcases List.mem_append.1 hch with hc | hc
          · exact hwin ch hc
          · apply hrest ch
            have hdd : (text.drop start).drop c.chunkSize = text.drop (start + c.chunkSize) := by
              rw [List.drop_drop]
            rw [hdd] at hc
            have hsub : List.Sublist (text.drop (start + c.chunkSize))
                (text.drop (start + (c.chunkSize - c.chunkOverlap))) :=
              List.drop_sublist_drop_left _ (by omega)
            exact hsub.mem hc
        · rw [if_neg hstrip] at h
          exact absurd h (by simp)
    · rw [if_neg hs] at h
      intro ch hch
      rw [List.drop_eq_nil_of_le (by omega)] at hch
      simp at hch

/-- `splitBySize` always completes within its allotted fuel when
`chunk_overlap < chunk_size`. -/
theorem splitBySize_eq (c : TSConfig) (text : List Char)
    (hov : c.chunkOverlap < c.chunkSize) :
    splitBySizeLoop c text (text.length + 1) 0 = some (splitBySize c text) := by
  obtain ⟨res, hres⟩ := splitBySizeLoop_completes c text hov (text.length + 1) 0 (by omega)
  rw [splitBySize, hres]
  rfl

/-! ### Lemmas: the `_recursive_split` accumulation loop -/

/-- Invariant of the accumulation loop: assuming the recursive splitter
only produces bounded chunks with non-whitespace content (and produces
nothing only on whitespace input), every chunk the loop emits is bounded
with non-whitespace content, and the running buffer is bounded unless it is
pure whitespace. -/
theorem mergeLoop_good (c : TSConfig) (recRest : List Char → List (List Char))
    (sep : List Char)
    (hrec_good : ∀ t ch, ch ∈ recRest t → ch.length ≤ c.chunkSize ∧ pyStrip ch ≠ [])
    (hrec_nil : ∀ t, recRest t = [] → ∀ ch ∈ t, isSpacePy ch) :
    ∀ (sps chunks : List (List Char)) (current : List Char),
      (∀ ch ∈ chunks, ch.length ≤ c.chunkSize ∧ pyStrip ch ≠ []) →
      (current.length ≤ c.chunkSize ∨ pyStrip current = []) →
      (∀ ch ∈ (mergeLoop c recRest sep sps chunks current).1,
          ch.length ≤ c.chunkSize ∧ pyStrip ch ≠ []) ∧
      ((mergeLoop c recRest sep sps chunks current).2.length ≤ c.chunkSize ∨
          pyStrip (mergeLoop c recRest sep sps chunks current).2 = []) := by
  intro sps
  induction sps with
  | nil =>
    intro chunks current hchunks hcur
    simpa [mergeLoop] using ⟨hchunks, hcur⟩
  | cons sp sps ih =>
    intro chunks current hchunks hcur
    rw [mergeLoop]
    simp only []
    by_cases hfit : current.length + (sp ++ sep).length ≤ c.chunkSize
    · rw [if_pos hfit]
      exact ih chunks (current ++ (sp ++ sep)) hchunks (Or.inl (by simpa using hfit))
    · rw [if_neg hfit]
      -- the flushed chunk list is still good
      have hchunks1 :
          ∀ ch ∈ (if pyStrip current = [] then chunks else chunks ++ [pyStrip current]),
            ch.length ≤ c.chunkSize ∧ pyStrip ch ≠ [] := by
        by_cases hstrip : pyStrip current = []
        · rw [if_pos hstrip]; exact hchunks
        · rw [if_neg hstrip]
          intro ch hch
          rcases List.mem_append.1 hch with hc | hc
          · exact hchunks ch hc
          · have hc' : ch = pyStrip current := by simpa using hc
            subst hc'
            have hlen : current.length ≤ c.chunkSize := by
              rcases hcur with h | h
              · exact h
              · exact absurd h hstrip
            exact ⟨(pyStrip_length current).trans hlen, by rw [pyStrip_idem]; exact hstrip⟩
      set current1 :=
        if 0 < c.chunkOverlap ∧ current ≠ [] then takeLast c.chunkOverlap current ++ (sp ++ sep)
        else sp ++ sep with hcur1
      by_cases hbig : c.chunkSize < current1.length
      · rw [if_pos hbig]
        rcases hsubs : recRest current1 with _ | ⟨s0, subs'⟩
        · rw [if_pos rfl]
          apply ih _ current1 hchunks1
          exact Or.inr (pyStrip_eq_nil_iff.2 (hrec_nil current1 hsubs))
        · rw [if_neg (by simp)]
          apply ih
          · intro ch hch
            rcases List.mem_append.1 hch with hc | hc
            · exact hchunks1 ch hc
            · exact hrec_good current1 ch (by rw [hsubs]; exact (List.dropLast_sublist _).mem hc)
          · have hmem : (s0 :: subs').getLastD [] ∈ s0 :: subs' := by
              rw [List.getLastD_cons]
              exact List.getLastD_mem_cons _ _
            exact Or.inl (hrec_good current1 _ (by rw [hsubs]; exact hmem)).1
      · rw [if_neg hbig]
        exact ih _ current1 hchunks1 (Or.inl (by omega))

/-- If the loop ends with no emitted chunk and a whitespace buffer, then it
started that way and every piece it consumed (separator re-appended) was
pure whitespace. -/
theorem mergeLoop_nil (c : TSConfig) (recRest : List Char → List (List Char))
    (sep : List Char)
    (hrec_good : ∀ t ch, ch ∈ recRest t → ch.length ≤ c.chunkSize ∧ pyStrip ch ≠ []) :
    ∀ (sps chunks : List (List Char)) (current : List Char),
      (mergeLoop c recRest sep sps chunks current).1 = [] →
      pyStrip (mergeLoop c recRest sep sps chunks current).2 = [] →
      chunks = [] ∧ pyStrip current = [] ∧
        ∀ sp ∈ sps, ∀ ch ∈ sp ++ sep, isSpacePy ch := by
  intro sps
  induction sps with
  | nil =>
    intro chunks current h1 h2
    simp only [mergeLoop] at h1 h2
    exact ⟨h1, h2, by simp⟩
  | cons sp sps ih =>
    intro chunks current h1 h2
    rw [mergeLoop] at h1 h2
    simp only [] at h1 h2
    by_cases hfit : current.length + (sp ++ sep).length ≤ c.chunkSize
    · rw [if_pos hfit] at h1 h2
      obtain ⟨hch, hcur, hrest⟩ := ih chunks (current ++ (sp ++ sep)) h1 h2
      have hall : ∀ ch ∈ current ++ (sp ++ sep), isSpacePy ch := pyStrip_eq_nil_iff.1 hcur
      refine ⟨hch, pyStrip_eq_nil_iff.2 (fun ch hc => hall ch (List.mem_append.2 (Or.inl hc))), ?_⟩
      intro q hq ch hc
      rcases List.mem_cons.1 hq with hq' | hq'
      · subst hq'
        exact hall ch (List.mem_append.2 (Or.inr hc))
      · exact hrest q hq' ch hc
    · rw [if_neg hfit] at h1 h2
      set chunks1 := if pyStrip current = [] then chunks else chunks ++ [pyStrip current]
        with hchunks1
      set current1 :=
        if 0 < c.chunkOverlap ∧ current ≠ [] then takeLast c.chunkOverlap current ++ (sp ++ sep)
        else sp ++ sep with hcur1
      -- helper: from a recursive-call conclusion `chunks1 = []` recover both facts
      have hsplit1 : chunks1 = [] → chunks = [] ∧ pyStrip current = [] := by
        intro h0
        by_cases hstrip : pyStrip current = []
        · rw [hchunks1, if_pos hstrip] at h0; exact ⟨h0, hstrip⟩
        · rw [hchunks1, if_neg hstrip] at h0; simp at h0
      have hpiece_of_cur1 : pyStrip current1 = [] → ∀ ch ∈ sp ++ sep, isSpacePy ch := by
        intro h0 ch hc
        have hall := pyStrip_eq_nil_iff.1 h0
        rw [hcur1] at hall
        by_cases hov0 : 0 < c.chunkOverlap ∧ current ≠ []
        · rw [if_pos hov0] at hall
          exact hall ch (List.mem_append.2 (Or.inr hc))
        · rw [if_neg hov0] at hall
          exact hall ch hc
      by_cases hbig : c.chunkSize < current1.length
      · rw [if_pos hbig] at h1 h2
        rcases hsubs : recRest current1 with _ | ⟨s0, subs'⟩
        · rw [hsubs, if_pos rfl] at h1 h2
          obtain ⟨hc1, hcur1nil, hrest⟩ := ih chunks1 current1 h1 h2
          obtain ⟨hch, hstr⟩ := hsplit1 hc1
          refine ⟨hch, hstr, ?_⟩
          intro q hq ch hc
          rcases List.mem_cons.1 hq with hq' | hq'
          · subst hq'; exact hpiece_of_cur1 hcur1nil ch hc
          · exact hrest q hq' ch hc
        · rw [hsubs, if_neg (by simp)] at h1 h2
          obtain ⟨hc1, hlastnil, hrest⟩ := ih _ _ h1 h2
          exfalso
          have hmem : (s0 :: subs').getLastD [] ∈ s0 :: subs' := by
            rw [List.getLastD_cons]
            exact List.getLastD_mem_cons _ _
          exact (hrec_good current1 _ (by rw [hsubs]; exact hmem)).2 hlastnil
      · rw [if_neg hbig] at h1 h2
        obtain ⟨hc1, hcur1nil, hrest⟩ := ih chunks1 current1 h1 h2
        obtain ⟨hch, hstr⟩ := hsplit1 hc1
        refine ⟨hch, hstr, ?_⟩
        intro q hq ch hc
        rcases List.mem_cons.1 hq with hq' | hq'
        · subst hq'; exact hpiece_of_cur1 hcur1nil ch hc
        · exact hrest q hq' ch hc

theorem splitBySize_good (c : TSConfig) (text : List Char)
    (hov : c.chunkOverlap < c.chunkSize) :
    ∀ ch ∈ splitBySize c text, ch.length ≤ c.chunkSize ∧ pyStrip ch ≠ [] := by
  intro ch hch
  obtain ⟨hlen, hstrip, hne⟩ :=
    splitBySizeLoop_chunks c text (text.length + 1) 0 (splitBySize c text)
      (splitBySize_eq c text hov) ch hch
  exact ⟨hlen, by rw [hstrip]; exact hne⟩

theorem splitBySize_nil (c : TSConfig) (text : List Char)
    (hov : c.chunkOverlap < c.chunkSize) (h : splitBySize c text = []) :
    ∀ ch ∈ text, isSpacePy ch := by
  have hloop : splitBySizeLoop c text (text.length + 1) 0 = some [] := by
    rw [splitBySize_eq c text hov, h]
  have := splitBySizeLoop_nil c text hov (text.length + 1) 0 hloop
  simpa using this

/-- Joint invariant of `_recursive_split`: (a) every chunk it returns has at
most `chunk_size` characters and non-whitespace content; (b) it returns no
chunks only on pure-whitespace input (non-whitespace content is never
silently dropped down to emptiness). -/
theorem recSplit_good_nil (c : TSConfig) (hov : c.chunkOverlap < c.chunkSize) :
    ∀ seps : List (List Char),
      (∀ (text ch : List Char), ch ∈ recSplit c seps text →
          ch.length ≤ c.chunkSize ∧ pyStrip ch ≠ []) ∧
      (∀ text : List Char, recSplit c seps text = [] → ∀ ch ∈ text, isSpacePy ch) := by
  intro seps
  induction seps with
  | nil =>
    constructor
    · intro text ch hch
      rw [recSplit] at hch
      by_cases h0 : text = []
      · rw [if_pos h0] at hch; simp at hch
      · rw [if_neg h0] at hch
        by_cases h1 : text.length ≤ c.chunkSize
        · rw [if_pos h1] at hch
          by_cases h2 : pyStrip text = []
          · rw [if_pos h2] at hch; simp at hch
          · rw [if_neg h2] at hch
            have : ch = text := by simpa using hch
            subst this
            exact ⟨h1, h2⟩
        · rw [if_neg h1] at hch
          exact splitBySize_good c text hov ch hch
    · intro text h
      rw [recSplit] at h
      by_cases h0 : text = []
      · subst h0; simp
      · rw [if_neg h0] at h
        by_cases h1 : text.length ≤ c.chunkSize
        · rw [if_pos h1] at h
          by_cases h2 : pyStrip text = []
          · exact pyStrip_eq_nil_iff.1 h2
          · rw [if_neg h2] at h; simp at h
        · rw [if_neg h1] at h
          exact splitBySize_nil c text hov h
  | cons s rest ih =>
    constructor
    · intro text ch hch
      rw [recSplit] at hch
      by_cases h0 : text = []
      · rw [if_pos h0] at hch; simp at hch
      · rw [if_neg h0] at hch
        by_cases h1 : text.length ≤ c.chunkSize
        · rw [if_pos h1] at hch
          by_cases h2 : pyStrip text = []
          · rw [if_pos h2] at hch; simp at hch
          · rw [if_neg h2] at hch
            have : ch = text := by simpa using hch
            subst this
            exact ⟨h1, h2⟩
        · rw [if_neg h1] at hch
          by_cases hse : s = []
          · rw [if_pos hse] at hch
            exact splitBySize_good c text hov ch hch
          · rw [if_neg hse] at hch
            by_cases hsub : hasSub s text
            · rw [if_pos hsub] at hch
              obtain ⟨hgood, hcur⟩ :=
                mergeLoop_good c (fun t => recSplit c rest t) s
                  (fun t ch h => ih.1 t ch h) (fun t h => ih.2 t h)
                  (splitOnSep s text) [] [] (by simp) (Or.inl (by simp))
              rcases List.mem_append.1 hch with hc | hc
              · exact hgood ch hc
              · by_cases h3 :
                  pyStrip (mergeLoop c (fun t => recSplit c rest t) s
                    (splitOnSep s text) [] []).2 = []
                · rw [if_pos h3] at hc; simp at hc
                · rw [if_neg h3] at hc
                  have : ch = pyStrip (mergeLoop c (fun t => recSplit c rest t) s
                      (splitOnSep s text) [] []).2 := by simpa using hc
                  subst this
                  rcases hcur with hlen | hnil
                  · exact ⟨(pyStrip_length _).trans hlen, by rw [pyStrip_idem]; exact h3⟩
                  · exact absurd hnil h3
            · rw [if_neg hsub] at hch
              exact ih.1 text ch hch
    · intro text h
      rw [recSplit] at h
      by_cases h0 : text = []
      · subst h0; simp
      · rw [if_neg h0] at h
        by_cases h1 : text.length ≤ c.chunkSize
        · rw [if_pos h1] at h
          by_cases h2 : pyStrip text = []
          · exact pyStrip_eq_nil_iff.1 h2
          · rw [if_neg h2] at h; simp at h
        · rw [if_neg h1] at h
          by_cases hse : s = []
          · rw [if_pos hse] at h
            exact splitBySize_nil c text hov h
          · rw [if_neg hse] at h
            by_cases hsub : hasSub s text
            · rw [if_pos hsub] at h
              have hst1 : (mergeLoop c (fun t => recSplit c rest t) s
                  (splitOnSep s text) [] []).1 = [] := by
                rcases List.append_eq_nil.1 h with ⟨ha, _⟩
                exact ha
              have hst2 : pyStrip (mergeLoop c (fun t => recSplit c rest t) s
                  (splitOnSep s text) [] []).2 = [] := by
                rcases List.append_eq_nil.1 h with ⟨_, hb⟩
                by_cases h3 : pyStrip (mergeLoop c (fun t => recSplit c rest t) s
                    (splitOnSep s text) [] []).2 = []
                · exact h3
                · rw [if_neg h3] at hb; simp at hb
              obtain ⟨_, _, hsp⟩ :=
                mergeLoop_nil c (fun t => recSplit c rest t) s
                  (fun t ch hh => ih.1 t ch hh)
                  (splitOnSep s text) [] [] hst1 hst2
              rcases hse' : s with _ | ⟨a, s'⟩
              · exact absurd hse' hse
              · subst hse'
                exact allSpace_of_splits hsp
            · rw [if_neg hsub] at h
              exact ih.2 text h

/-! ### Lemmas: `split_text` and the code-aware splitter -/

theorem splitText_mem (c : TSConfig) (text : List Char) :
    ∀ pc ∈ splitText c text,
      pc.content ∈ recSplit c c.separators text ∧ pc.isCode = false := by
  intro pc hpc
  simp only [splitText, List.mem_map] at hpc
  obtain ⟨p, hp, hpc⟩ := hpc
  subst hpc
  refine ⟨?_, rfl⟩
  have hget := List.mem_enum_iff_getElem?.1 hp
  exact List.getElem?_mem hget

/-- Chunks of the plain splitter are never tagged as code. -/
theorem splitText_no_code (c : TSConfig) (text : List Char) :
    (splitText c text).filter (fun pc => pc.isCode) = [] := by
  rw [List.filter_eq_nil_iff]
  intro pc hpc
  simp [(splitText_mem c text pc hpc).2]

/-- The `is_code` chunks produced by the match loop are exactly the
matched blocks of length at most `2 * chunk_size`, in order, byte for
byte. -/
theorem codeLoop_code_chunks (c : TSConfig) (text : List Char) :
    ∀ (ms : List (Nat × Nat)) (chunks : List PyChunk) (lastEnd : Nat),
      ((codeLoop c text ms chunks lastEnd).1.filter (fun pc => pc.isCode)).map
          (fun pc => pc.content)
        = (chunks.filter (fun pc => pc.isCode)).map (fun pc => pc.content)
          ++ (ms.filter (fun m => (sliceL text m.1 m.2).length ≤ c.chunkSize * 2)).map
              (fun m => sliceL text m.1 m.2) := by
  intro ms
  induction ms with
  | nil => intro chunks lastEnd; simp [codeLoop]
  | cons m ms ih =>
    intro chunks lastEnd
    obtain ⟨s, e⟩ := m
    rw [codeLoop]
    set before := sliceL text lastEnd s with hbefore
    set chunks1 := if pyStrip before = [] then chunks else chunks ++ splitText c before
      with hchunks1
    have hc1 : (chunks1.filter (fun pc => pc.isCode)).map (fun pc => pc.content)
        = (chunks.filter (fun pc => pc.isCode)).map (fun pc => pc.content) := by
      rw [hchunks1]
      by_cases hb : pyStrip before = []
      · rw [if_pos hb]
      · rw [if_neg hb, List.filter_append, splitText_no_code, List.append_nil]
    by_cases hfit : (sliceL text s e).length ≤ c.chunkSize * 2
    · rw [if_pos hfit, ih]
      rw [List.filter_cons_of_pos (by simpa using hfit)]
      simp only [List.filter_append, List.map_append, hc1]
      rw [List.filter_cons_of_pos (by simp)]
      simp
    · rw [if_neg hfit, ih]
      rw [List.filter_cons_of_neg (by simpa using hfit)]
      simp only [List.filter_append, List.map_append, hc1, splitText_no_code,
        List.append_nil]

/-- Non-code chunks accumulated by the match loop all come from the plain
splitter, hence have non-whitespace content. -/
theorem codeLoop_noncode_good (c : TSConfig) (text : List Char)
    (hov : c.chunkOverlap < c.chunkSize) :
    ∀ (ms : List (Nat × Nat)) (chunks : List PyChunk) (lastEnd : Nat),
      (∀ pc ∈ chunks, pc.isCode = false → pyStrip pc.content ≠ []) →
      ∀ pc ∈ (codeLoop c text ms chunks lastEnd).1,
        pc.isCode = false → pyStrip pc.content ≠ [] := by
  intro ms
  induction ms with
  | nil =>
    intro chunks lastEnd hinv
    simpa [codeLoop] using hinv
  | cons m ms ih =>
    intro chunks lastEnd hinv
    obtain ⟨s, e⟩ := m
    rw [codeLoop]
    apply ih
    intro pc hpc hcode
    -- peel the two conditional appends
    have hfromSplit : ∀ (t : List Char), pc ∈ splitText c t → pyStrip pc.content ≠ [] := by
      intro t hmem
      have := (splitText_mem c t pc hmem).1
      exact ((recSplit_good_nil c hov c.separators).1 t pc.content this).2
    by_cases hfit : (sliceL text s e).length ≤ c.chunkSize * 2
    · rw [if_pos hfit] at hpc
      rcases List.mem_append.1 hpc with h1 | h1
      · by_cases hb : pyStrip (sliceL text lastEnd s) = []
        · rw [if_pos hb] at h1; exact hinv pc h1 hcode
        · rw [if_neg hb] at h1
          rcases List.mem_append.1 h1 with h2 | h2
          · exact hinv pc h2 hcode
          · exact hfromSplit _ h2
      · -- the code chunk itself has isCode = true, contradiction
        rw [List.mem_singleton] at h1
        rw [h1] at hcode
        simp at hcode
    · rw [if_neg hfit] at hpc
      rcases List.mem_append.1 hpc with h1 | h1
      · by_cases hb : pyStrip (sliceL text lastEnd s) = []
        · rw [if_pos hb] at h1; exact hinv pc h1 hcode
        · rw [if_neg hb] at h1
          rcases List.mem_append.1 h1 with h2 | h2
          · exact hinv pc h2 hcode
          · exact hfromSplit _ h2
      · exact hfromSplit _ h1

/-! ### Lemmas: the fuel-explicit mirror completes (termination) -/

theorem mergeLoopF_eq (c : TSConfig) (recF : List Char → Option (List (List Char)))
    (recT : List Char → List (List Char)) (sep : List Char)
    (h : ∀ t, recF t = some (recT t)) :
    ∀ (sps chunks : List (List Char)) (current : List Char),
      mergeLoopF c recF sep sps chunks current
        = some (mergeLoop c recT sep sps chunks current) := by
  intro sps
  induction sps with
  | nil => intro chunks current; rfl
  | cons sp sps ih =>
    intro chunks current
    rw [mergeLoopF, mergeLoop]
    simp only []
    by_cases hfit : current.length + (sp ++ sep).length ≤ c.chunkSize
    · rw [if_pos hfit, if_pos hfit]
      exact ih _ _
    · rw [if_neg hfit, if_neg hfit]
      set chunks1 := if pyStrip current = [] then chunks else chunks ++ [pyStrip current]
      set current1 :=
        if 0 < c.chunkOverlap ∧ current ≠ [] then takeLast c.chunkOverlap current ++ (sp ++ sep)
        else sp ++ sep
      by_cases hbig : c.chunkSize < current1.length
      · rw [if_pos hbig, if_pos hbig, h current1]
        rcases hsubs : recT current1 with _ | ⟨s0, subs'⟩
        · rw [if_pos rfl]
          exact ih _ _
        · rw [if_neg (by simp)]
          exact ih _ _
      · rw [if_neg hbig, if_neg hbig]
        exact ih _ _

/-- Fuel `separators.length + 1` always completes the mirrored recursion
when `chunk_overlap < chunk_size`: each Python-level recursive call
strictly narrows the separator list, and the character-level loop advances
by `chunk_size - chunk_overlap > 0` per step. -/
theorem recSplitF_complete (c : TSConfig) (hov : c.chunkOverlap < c.chunkSize) :
    ∀ (seps : List (List Char)) (text : List Char),
      recSplitF c (seps.length + 1) seps text = some (recSplit c seps text) := by
  intro seps
  induction seps with
  | nil =>
    intro text
    rw [recSplitF, recSplit]
    by_cases h0 : text = []
    · rw [if_pos h0, if_pos h0]
    · rw [if_neg h0, if_neg h0]
      by_cases h1 : text.length ≤ c.chunkSize
      · rw [if_pos h1, if_pos h1]
      · rw [if_neg h1, if_neg h1]
        exact splitBySize_eq c text hov
  | cons s rest ih =>
    intro text
    rw [recSplitF, recSplit]
    by_cases h0 : text = []
    · rw [if_pos h0, if_pos h0]
    · rw [if_neg h0, if_neg h0]
      by_cases h1 : text.length ≤ c.chunkSize
      · rw [if_pos h1, if_pos h1]
      · rw [if_neg h1, if_neg h1]
        simp only [List.length_cons]
        by_cases hse : s = []
        · rw [if_pos hse, if_pos hse]
          exact splitBySize_eq c text hov
        · rw [if_neg hse, if_neg hse]
          by_cases hsub : hasSub s text
          · rw [if_pos hsub, if_pos hsub]
            rw [mergeLoopF_eq c _ (fun t => recSplit c rest t) s
              (fun t => by simpa using ih t) (splitOnSep s text) [] []]
          · rw [if_neg hsub, if_neg hsub]
            simpa using ih text

/-! ### Lemmas: `_format_sources`, search, store -/

theorem formatSourcesAux_eq (chunks : List SearchResult) :
    ∀ seen : List (List Char),
      formatSourcesAux chunks seen
        = formatSourcesRef (chunks.filter (fun r => srcKey r ∉ seen)) := by
  induction chunks with
  | nil =>
    intro seen
    rw [formatSourcesAux, List.filter_nil, formatSourcesRef]
  | cons r rest ih =>
    intro seen
    rw [formatSourcesAux]
    by_cases hseen : srcKey r ∈ seen
    · rw [if_pos hseen, List.filter_cons_of_neg (by simpa using hseen)]
      exact ih seen
    · rw [if_neg hseen, List.filter_cons_of_pos (by simpa using hseen), formatSourcesRef]
      congr 1
      rw [ih (srcKey r :: seen), List.filter_filter]
      congr 1
      apply List.filter_congr
      intro d _
      simp only [List.mem_cons, not_or, Bool.and_comm]
      simp [decide_not, Bool.and_comm]

theorem formatSources_eq_ref (chunks : List SearchResult) :
    formatSources chunks = formatSourcesRef chunks := by
  rw [formatSources, formatSourcesAux_eq chunks []]
  congr 1
  apply List.filter_eq_self.2
  intro r _
  simp

theorem formatSourcesAux_mem :
    ∀ (chunks : List SearchResult) (seen : List (List Char)) (s : SourceRef),
      s ∈ formatSourcesAux chunks seen → ∃ r ∈ chunks, s = mkSourceRef r := by
  intro chunks
  induction chunks with
  | nil => intro seen s h; simp [formatSourcesAux] at h
  | cons r rest ih =>
    intro seen s h
    rw [formatSourcesAux] at h
    by_cases hseen : srcKey r ∈ seen
    · rw [if_pos hseen] at h
      obtain ⟨q, hq, hs⟩ := ih seen s h
      exact ⟨q, List.mem_cons_of_mem _ hq, hs⟩
    · rw [if_neg hseen] at h
      rcases List.mem_cons.1 h with hs | hs
      · exact ⟨r, by simp, hs⟩
      · obtain ⟨q, hq, hs'⟩ := ih _ s hs
        exact ⟨q, List.mem_cons_of_mem _ hq, hs'⟩

theorem mem_insertByDist (dist : VEntry → ℚ) (e : VEntry) :
    ∀ (l : List VEntry) (f : VEntry), f ∈ insertByDist dist e l → f = e ∨ f ∈ l := by
  intro l
  induction l with
  | nil => intro f h; simpa [insertByDist] using h
  | cons g rest ih =>
    intro f h
    rw [insertByDist] at h
    by_cases hle : dist g ≤ dist e
    · rw [if_pos hle] at h
      rcases List.mem_cons.1 h with hf | hf
      · exact Or.inr (by simp [hf])
      · rcases ih f hf with hf' | hf'
        · exact Or.inl hf'
        · exact Or.inr (List.mem_cons_of_mem _ hf')
    · rw [if_neg hle] at h
      rcases List.mem_cons.1 h with hf | hf
      · exact Or.inl hf
      · exact Or.inr hf

theorem mem_sortByDist (dist : VEntry → ℚ) :
    ∀ (l : List VEntry) (f : VEntry), f ∈ sortByDist dist l → f ∈ l := by
  intro l
  induction l with
  | nil => intro f h; simp [sortByDist] at h
  | cons g rest ih =>
    intro f h
    rw [sortByDist] at h
    rcases mem_insertByDist dist g _ f h with hf | hf
    · simp [hf]
    · exact List.mem_cons_of_mem _ (ih f hf)

theorem vsearch_mem {st : VStore} {dist : VEntry → ℚ} {k : Nat} {r : SearchResult}
    (h : r ∈ vsearch st dist k) :
    ∃ e ∈ st,
      r = { content := e.content
            source := e.source
            page := e.page
            documentId := e.documentId
            relevanceScore := 1 - dist e } := by
  simp only [vsearch, formatResults, List.map_map, List.mem_map] at h
  obtain ⟨e, he, hr⟩ := h
  exact ⟨e, mem_sortByDist dist st e (List.mem_of_mem_take he), hr.symm⟩

/-! ### Claim theorems -/

/-- C1 counterexample: with the valid configuration `chunk_size = 3 > 0 =
chunk_overlap` and input `"ab\tcd"` (no separator occurs, so the split goes
through the character fallback `_split_by_size`), the first emitted chunk is
`"ab"` — not the final remainder, and of length 2 ≠ 3 = `chunk_size`,
because the `chunk_size`-character window `"ab\t"` is stripped after
slicing.  This falsifies "chunks produced by the character-fallback path
are exactly chunk_size characters long (or the final remainder)". -/
theorem C1_counterexample :
    (0 : Nat) < 3 ∧
    recSplit ⟨3, 0, defaultSeparators⟩ defaultSeparators "ab\tcd".data
      = splitBySize ⟨3, 0, defaultSeparators⟩ "ab\tcd".data ∧
    splitBySize ⟨3, 0, defaultSeparators⟩ "ab\tcd".data = ["ab".data, "cd".data] ∧
    ("ab".data).length ≠ 3 := by decide

/-- C1 (amended): for every configuration with `chunk_overlap < chunk_size`,
every chunk emitted by `split_text` has length at most `chunk_size`, and so
does every chunk of the character-fallback `_split_by_size` — fallback
chunks are `chunk_size`-character windows that are then stripped, so they
may be shorter than `chunk_size` even when they are not the final
remainder. -/
theorem C1_chunk_length_bound (c : TSConfig) (text : List Char)
    (hov : c.chunkOverlap < c.chunkSize) :
    (∀ pc ∈ splitText c text, pc.content.length ≤ c.chunkSize) ∧
    (∀ ch ∈ splitBySize c text, ch.length ≤ c.chunkSize) := by
  constructor
  · intro pc hpc
    exact ((recSplit_good_nil c hov c.separators).1 text pc.content
      (splitText_mem c text pc hpc).1).1
  · intro ch hch
    exact (splitBySize_good c text hov ch hch).1

/-- C1 witness: the amended bound at the concrete configuration
`chunk_size = 3`, `chunk_overlap = 0` on `"ab\tcd"`. -/
theorem C1_chunk_length_bound_witness :
    (0 : Nat) < 3 ∧
    ((∀ pc ∈ splitText ⟨3, 0, defaultSeparators⟩ "ab\tcd".data,
        pc.content.length ≤ 3) ∧
     (∀ ch ∈ splitBySize ⟨3, 0, defaultSeparators⟩ "ab\tcd".data, ch.length ≤ 3)) :=
  ⟨by decide, C1_chunk_length_bound ⟨3, 0, defaultSeparators⟩ "ab\tcd".data (by decide)⟩

/-- C2 counterexample: on `"x\n\t\nz"` the code-aware splitter (default
configuration 800/100) emits the chunk `"\n\t"` — a regex match of the
indented-code alternative — tagged `is_code`, whose trimmed content is
empty.  This falsifies "every emitted chunk has non-empty content after
trimming whitespace". -/
theorem C2_counterexample :
    (codeSplitText ⟨800, 100, defaultSeparators⟩ "x\n\t\nz".data).map
        (fun pc => (pc.content, pc.isCode))
      = [("x".data, false), ("\n\t".data, true), ("\nz".data, false)] ∧
    pyStrip "\n\t".data = [] := by decide

/-- C2 (amended): for every configuration with `chunk_overlap < chunk_size`,
every chunk emitted by `TextSplitter.split_text` has non-empty trimmed
content, and so does every chunk of `CodeAwareTextSplitter.split_text`
that is *not* tagged `is_code` — code-block chunks are emitted verbatim
from the regex match and can be whitespace-only. -/
theorem C2_trimmed_nonempty (c : TSConfig) (text : List Char)
    (hov : c.chunkOverlap < c.chunkSize) :
    (∀ pc ∈ splitText c text, pyStrip pc.content ≠ []) ∧
    (∀ pc ∈ codeSplitText c text, pc.isCode = false → pyStrip pc.content ≠ []) := by
  have hplain : ∀ (t : List Char), ∀ pc ∈ splitText c t, pyStrip pc.content ≠ [] := by
    intro t pc hpc
    exact ((recSplit_good_nil c hov c.separators).1 t pc.content
      (splitText_mem c t pc hpc).1).2
  refine ⟨hplain text, ?_⟩
  intro pc hpc hcode
  rw [codeSplitText] at hpc
  by_cases hms : finditer text = []
  · rw [if_pos hms] at hpc
    exact hplain text pc hpc
  · rw [if_neg hms] at hpc
    have hloop := codeLoop_noncode_good c text hov (finditer text) [] 0 (by simp)
    by_cases hrem :
        pyStrip (text.drop (codeLoop c text (finditer text) [] 0).2) = []
    · rw [if_pos hrem] at hpc
      exact hloop pc hpc hcode
    · rw [if_neg hrem] at hpc
      rcases List.mem_append.1 hpc with h1 | h1
      · exact hloop pc h1 hcode
      · exact hplain _ pc h1

/-- C2 witness: the amended statement at the default code-aware
configuration 800/100 on `"x\n\t\nz"`. -/
theorem C2_trimmed_nonempty_witness :
    (100 : Nat) < 800 ∧
    ((∀ pc ∈ splitText ⟨800, 100, defaultSeparators⟩ "x\n\t\nz".data,
        pyStrip pc.content ≠ []) ∧
     (∀ pc ∈ codeSplitText ⟨800, 100, defaultSeparators⟩ "x\n\t\nz".data,
        pc.isCode = false → pyStrip pc.content ≠ [])) :=
  ⟨by decide, C2_trimmed_nonempty ⟨800, 100, defaultSeparators⟩ "x\n\t\nz".data (by decide)⟩

/-- C3 counterexample: the text `"a``` ```x```"` contains the fenced code
block `"```x```"` (it occurs as a substring, delimited by triple backticks,
length 7 < 2 × 800), yet the code-aware splitter never emits it as a chunk:
the lazy regex pairs the *first* fence of the text with the nearest closing
fence, so the match is `"``` ```"` and the block the claim speaks of is cut
apart.  This falsifies the claim for arbitrary input text. -/
theorem C3_counterexample :
    hasSub "```x```".data "a``` ```x```".data = true ∧
    ("```x```".data).length ≤ 2 * 800 ∧
    (∀ pc ∈ codeSplitText ⟨800, 100, defaultSeparators⟩ "a``` ```x```".data,
      ¬(pc.isCode = true ∧ pc.content = "```x```".data)) := by decide

/-- C3 (amended): the chunks tagged `is_code` emitted by
`CodeAwareTextSplitter.split_text` are exactly the *matches of its code
pattern* whose length is at most `2 × chunk_size`, in order, with content
equal to the matched text byte for byte (no trimming, no splitting).  A
fenced block of the text is emitted intact only when it coincides with such
a match; unbalanced earlier backticks can shift the match boundaries. -/
theorem C3_code_blocks (c : TSConfig) (text : List Char) :
    ((codeSplitText c text).filter (fun pc => pc.isCode)).map (fun pc => pc.content)
      = ((finditer text).filter
            (fun m => (sliceL text m.1 m.2).length ≤ c.chunkSize * 2)).map
          (fun m => sliceL text m.1 m.2) := by
  rw [codeSplitText]
  by_cases hms : finditer text = []
  · rw [if_pos hms, hms]
    simp [splitText_no_code]
  · rw [if_neg hms]
    by_cases hrem :
        pyStrip (text.drop (codeLoop c text (finditer text) [] 0).2) = []
    · rw [if_pos hrem]
      simpa using codeLoop_code_chunks c text (finditer text) [] 0
    · rw [if_neg hrem]
      rw [List.filter_append, splitText_no_code, List.append_nil]
      simpa using codeLoop_code_chunks c text (finditer text) [] 0

/-- C4: `TextSplitter.__init__` performs no validation at all — there is no
`ConfigError` anywhere in the code — so constructing with
`chunk_overlap = chunk_size = 5` succeeds, and the invalid configuration is
then fatal at *split* time: on any text longer than `chunk_size`, the
`_split_by_size` loop advances `start` by `chunk_size - chunk_overlap = 0`
per iteration and never terminates (modelled: it exhausts every finite
fuel). -/
theorem C4_no_validation_and_divergence :
    TextSplitter.init 5 5 none = .ok ⟨5, 5, defaultSeparators⟩ ∧
    ∀ fuel : Nat,
      splitBySizeLoop ⟨5, 5, defaultSeparators⟩ "abcdef".data fuel 0 = none := by
  refine ⟨rfl, ?_⟩
  intro fuel
  induction fuel with
  | zero => rfl
  | succ fuel ih =>
    have h0 : (0 : Nat) + ((⟨5, 5, defaultSeparators⟩ : TSConfig).chunkSize
        - (⟨5, 5, defaultSeparators⟩ : TSConfig).chunkOverlap) = 0 := rfl
    rw [splitBySizeLoop, if_pos (by decide : 0 < ("abcdef".data).length), h0, ih]

/-- C5: `split_text` terminates for every configuration with
`chunk_overlap < chunk_size`: the fuel-explicit mirror of
`_recursive_split` (one fuel unit per Python-level recursive call, which
always passes the strictly narrowed separator list `separators[i+1:]`, and
`len(text)+1` iterations for the `_split_by_size` loop that advances by
`chunk_size - chunk_overlap > 0`) completes within `separators.length + 1`
units of fuel on every input, producing the value of the total function
`recSplit`. -/
theorem C5_termination (c : TSConfig) (seps : List (List Char)) (text : List Char)
    (hov : c.chunkOverlap < c.chunkSize) :
    recSplitF c (seps.length + 1) seps text = some (recSplit c seps text) :=
  recSplitF_complete c hov seps text

/-- C5 witness: the termination equation at `chunk_size = 3`,
`chunk_overlap = 0` on `"ab\tcd"` with the default separator list. -/
theorem C5_termination_witness :
    (0 : Nat) < 3 ∧
    recSplitF ⟨3, 0, defaultSeparators⟩ (defaultSeparators.length + 1)
        defaultSeparators "ab\tcd".data
      = some (recSplit ⟨3, 0, defaultSeparators⟩ defaultSeparators "ab\tcd".data) :=
  ⟨by decide, C5_termination ⟨3, 0, defaultSeparators⟩ defaultSeparators "ab\tcd".data
    (by decide)⟩

/-- C6: if the vector search returns an empty result set, `RAGService.query`
returns the fixed no-context message with `has_context = false` and an empty
source list, *for every generation capability* `gen` — the result does not
depend on `gen`, i.e. generation is not invoked; this is a normal return
value, not an error. -/
theorem C6_empty_results_fallback (st : VStore) (dist : VEntry → ℚ)
    (gen : List Char → List Char → List Char) (question : List Char)
    (k : Nat) (includeSources : Bool)
    (h : (searchWithSources st dist k).results = []) :
    RAGService.query st dist gen question k includeSources
      = { answer := noContextMsg, sources := some [], hasContext := false } := by
  rw [RAGService.query]
  simp [h]

/-- C6 witness: an empty store yields empty search results, and `query`
returns the fixed fallback. -/
theorem C6_empty_results_fallback_witness :
    (searchWithSources [] (fun _ => (0 : ℚ)) 5).results = [] ∧
    RAGService.query [] (fun _ => (0 : ℚ)) (fun _ _ => []) "hi".data 5 true
      = { answer := noContextMsg, sources := some [], hasContext := false } :=
  ⟨rfl, C6_empty_results_fallback [] (fun _ => (0 : ℚ)) (fun _ _ => [])
    "hi".data 5 true rfl⟩

/-- C7 counterexample: `_format_sources` keys its seen-set by the *string*
`f"{source}_{page}"`, not by the pair: the two chunks below have distinct
`(source, page)` pairs `("a_1","2")` and `("a","1_2")` yet are merged into
one reference.  Moreover the preview of the 2-character content `"hi"` is
`"hi..."`: the ellipsis is appended unconditionally, not only when the
content exceeds 150 characters.  Both falsify the claim as stated. -/
theorem C7_counterexample :
    srcKey ⟨"hi".data, some "a_1".data, some "2".data, none, 7⟩
      = srcKey ⟨"zz".data, some "a".data, some "1_2".data, none, 5⟩ ∧
    (some "a_1".data, some "2".data) ≠ (some "a".data, some "1_2".data) ∧
    ("hi".data).length ≤ 150 ∧
    formatSources
        [⟨"hi".data, some "a_1".data, some "2".data, none, 7⟩,
         ⟨"zz".data, some "a".data, some "1_2".data, none, 5⟩]
      = [mkSourceRef ⟨"hi".data, some "a_1".data, some "2".data, none, 7⟩] ∧
    (mkSourceRef ⟨"hi".data, some "a_1".data, some "2".data, none, 7⟩).content
      = "hi...".data ∧
    "hi...".data ≠ "hi".data := by decide

/-- C7 (amended): `_format_sources` deduplicates keyed by the concatenated
string `f"{source}_{page}"` (so distinct pairs whose concatenations
coincide are also merged); the first occurrence wins, preserving relevance
order — it equals the reference implementation that keeps each first
occurrence and filters all later chunks with the same key — and each
reference carries the label, the preview `content[:150] + "..."` (ellipsis
appended unconditionally), and the relevance score of its first-seen
occurrence. -/
theorem C7_format_sources (chunks : List SearchResult) :
    formatSources chunks = formatSourcesRef chunks ∧
    ∀ s ∈ formatSources chunks, ∃ r ∈ chunks,
      s.source = "《".data ++ sourceOf r.source ++ "》第".data ++ pageOf r.page
          ++ "页".data ∧
      s.content = r.content.take 150 ++ "...".data ∧
      s.relevanceScore = r.relevanceScore := by
  refine ⟨formatSources_eq_ref chunks, ?_⟩
  intro s hs
  obtain ⟨r, hr, hs'⟩ := formatSourcesAux_mem chunks [] s hs
  subst hs'
  exact ⟨r, hr, rfl, rfl, rfl⟩

/-- C8 counterexample: `search` computes `relevance_score = 1 - distance`
with *no clamping*: a stored entry at distance 2 (possible for cosine
distance, which ranges over [0,2]) yields relevance −1 ∉ [0,1]. -/
theorem C8_counterexample :
    (vsearch [⟨"c".data, none, none, none, none⟩] (fun _ => (2 : ℚ)) 5).map
        (fun r => r.relevanceScore) = [-1] ∧
    ¬ (0 : ℚ) ≤ -1 := by
  constructor
  · simp only [vsearch, formatResults, sortByDist, insertByDist, List.take, List.map]
    norm_num
  · norm_num

/-- C8 (amended): every search result carries
`relevance_score = 1 - distance` exactly (no clamping is applied); the
score lies in [0,1] precisely when the underlying distance lies in [0,1],
which is the case assumed here as a hypothesis. -/
theorem C8_relevance (pairs : List (VEntry × ℚ))
    (hb : ∀ p ∈ pairs, 0 ≤ p.2 ∧ p.2 ≤ 1) :
    ((formatResults pairs).map (fun r => r.relevanceScore)
        = pairs.map (fun p => 1 - p.2)) ∧
    ∀ r ∈ formatResults pairs, 0 ≤ r.relevanceScore ∧ r.relevanceScore ≤ 1 := by
  constructor
  · simp [formatResults]
  · intro r hr
    simp only [formatResults, List.mem_map] at hr
    obtain ⟨p, hp, hr⟩ := hr
    obtain ⟨h0, h1⟩ := hb p hp
    subst hr
    constructor
    · simp only []
      linarith
    · simp only []
      linarith

/-- C8 witness: the amended statement on a single pair at distance 1/2. -/
theorem C8_relevance_witness :
    (∀ p ∈ ([(⟨"c".data, none, none, none, none⟩, 1/2)] : List (VEntry × ℚ)),
        0 ≤ p.2 ∧ p.2 ≤ 1) ∧
    (((formatResults ([(⟨"c".data, none, none, none, none⟩, 1/2)] : List (VEntry × ℚ))).map
          (fun r => r.relevanceScore)
        = ([(⟨"c".data, none, none, none, none⟩, 1/2)] : List (VEntry × ℚ)).map
            (fun p => 1 - p.2)) ∧
     ∀ r ∈ formatResults ([(⟨"c".data, none, none, none, none⟩, 1/2)] : List (VEntry × ℚ)),
        0 ≤ r.relevanceScore ∧ r.relevanceScore ≤ 1) :=
  ⟨by intro p hp; rw [List.mem_singleton] at hp; subst hp; norm_num,
   C8_relevance _ (by intro p hp; rw [List.mem_singleton] at hp; subst hp; norm_num)⟩

/-- C9 counterexample: the round-trip claim fails when the store already
holds an entry with the same `document_id`: starting from one "d"-entry,
adding one chunk as "d" and then deleting "d" removes *both*, leaving 0
chunks instead of the pre-add count 1. -/
theorem C9_counterexample :
    ([⟨"new".data, none, none, none⟩] : List InChunk) ≠ [] ∧
    (getStats [(⟨"old".data, none, none, some "d".data, none⟩ : VEntry)]).totalChunks
      = 1 ∧
    (getStats (deleteDocument
        (addDocuments [⟨"old".data, none, none, some "d".data, none⟩]
          [⟨"new".data, none, none, none⟩] "d".data).2 "d".data).2).totalChunks
      = 0 := by decide

/-- C9 (amended): for every store state holding *no* entry with the given
`document_id`, every non-empty chunk list and that id:
`add_documents` then `delete_document` restores `get_stats().total_chunks`
to its pre-add value, afterwards no stored entry carries that
`document_id`, and hence no search result does either. -/
theorem C9_add_delete_roundtrip (st : VStore) (chunks : List InChunk)
    (docId : List Char) (hne : chunks ≠ [])
    (hfresh : ∀ e ∈ st, e.documentId ≠ some docId) :
    (getStats (deleteDocument (addDocuments st chunks docId).2 docId).2).totalChunks
        = (getStats st).totalChunks ∧
    (∀ e ∈ (deleteDocument (addDocuments st chunks docId).2 docId).2,
        e.documentId ≠ some docId) ∧
    (∀ (dist : VEntry → ℚ) (k : Nat) (r : SearchResult),
        r ∈ vsearch (deleteDocument (addDocuments st chunks docId).2 docId).2 dist k →
        r.documentId ≠ some docId) := by
  have hmem : ∀ e ∈ (deleteDocument (addDocuments st chunks docId).2 docId).2,
      e.documentId ≠ some docId := by
    intro e he
    have := List.mem_filter.1 he
    simpa using this.2
  refine ⟨?_, hmem, ?_⟩
  · rw [addDocuments, if_neg hne]
    simp only [deleteDocument, getStats]
    rw [List.filter_append]
    have h1 : st.filter (fun e => ¬ e.documentId = some docId) = st :=
      List.filter_eq_self.2 (fun e he => by simpa using hfresh e he)
    have h2 : (chunks.enum.map (fun p =>
        ({ content := p.2.content
           source := p.2.source
           page := p.2.page
           documentId := some docId
           chunkId := some (docId ++ '_' :: (Nat.repr p.1).data) } : VEntry))).filter
          (fun e => ¬ e.documentId = some docId) = [] := by
      rw [List.filter_eq_nil_iff]
      intro e he
      simp only [List.mem_map] at he
      obtain ⟨p, _, he⟩ := he
      subst he
      simp
    rw [h1, h2, List.append_nil]
  · intro dist k r hr
    obtain ⟨e, he, hr'⟩ := vsearch_mem hr
    subst hr'
    simpa using hmem e he

/-- C9 witness: the amended round-trip on the empty store with one chunk
and document id "d". -/
theorem C9_add_delete_roundtrip_witness :
    (([⟨"new".data, none, none, none⟩] : List InChunk) ≠ [] ∧
      ∀ e ∈ ([] : VStore), e.documentId ≠ some "d".data) ∧
    ((getStats (deleteDocument
          (addDocuments [] [⟨"new".data, none, none, none⟩] "d".data).2 "d".data).2).totalChunks
        = (getStats []).totalChunks ∧
     (∀ e ∈ (deleteDocument
          (addDocuments [] [⟨"new".data, none, none, none⟩] "d".data).2 "d".data).2,
        e.documentId ≠ some "d".data) ∧
     (∀ (dist : VEntry → ℚ) (k : Nat) (r : SearchResult),
        r ∈ vsearch (deleteDocument
          (addDocuments [] [⟨"new".data, none, none, none⟩] "d".data).2 "d".data).2 dist k →
        r.documentId ≠ some "d".data)) :=
  ⟨⟨by decide, by simp⟩,
    C9_add_delete_roundtrip [] [⟨"new".data, none, none, none⟩] "d".data
      (by decide) (by simp)⟩

/-- C10: `RAGService.query` and `RAGService.query_sync` compute the same
function of the search results and the generation capability: given the
same store, distance oracle, generation oracle, question, `k` and
`include_sources`, they return equal results (the two bodies differ only in
awaiting vs. calling the generation capability). -/
theorem C10_query_sync_equiv (st : VStore) (dist : VEntry → ℚ)
    (gen : List Char → List Char → List Char) (question : List Char)
    (k : Nat) (includeSources : Bool) :
    RAGService.query st dist gen question k includeSources
      = RAGService.querySync st dist gen question k includeSources := rfl

end AITutor
